import Mathlib

/-!
# Verification of the `rs-fft` repository

Shallow embedding of the recursive Cooley–Tukey FFT engine
(`src/src/fft.rs`), its private duplicate (`src/src/lib.rs`) and the
spectral peak detector (`src/src/analysis.rs`).

Numbers: the source computes with `f64`; the embedding uses exact real
and complex arithmetic (`ℝ`, `ℂ`), the standard idealisation for
floating-point numeric kernels.  Buffers (`FFTVec`) are `List ℂ`.

The complex arithmetic unit (`src/complex.rs`) is not part of the
repository snapshot; its operations are modelled from the spec (§4.1):
standard complex addition/subtraction/multiplication (those of `ℂ`),
`magnitude = sqrt(re² + im²)`, and `from_angle θ = (cos θ, sin θ)`.

The source recursion `fft_general` never reaches its base case on a
length-0 buffer; it is embedded twice: a fuel-indexed version
(`fft_general_fuel`, where `none` models a recursion deeper than the
fuel budget) and a total version (`fft_general`) agreeing with it on
every input on which the source terminates (`fft_general_fuel_eq_total`).
-/

namespace RsFFT

noncomputable section

/-- Modelled from the spec: `src/complex.rs` is absent from the snapshot;
§4.1 gives `from_angle(theta)` returning `(cos θ, sin θ)` — the complex
exponential `e^{iθ}` (source name `exp_i`). -/
def exp_i (θ : ℝ) : ℂ := ⟨Real.cos θ, Real.sin θ⟩

/-- Modelled from the spec: `magnitude` (source `Complex::mag`) is the
Euclidean norm `sqrt(re² + im²)` (§3, §4.1). -/
def mag (c : ℂ) : ℝ := Real.sqrt (c.re ^ 2 + c.im ^ 2)

/-- `FFTVec::split` (src/src/fft.rs lines 11–22): partition the buffer into
the elements at even positions and at odd positions, preserving order. -/
def split : List ℂ → List ℂ × List ℂ
  | [] => ([], [])
  | [x] => ([x], [])
  | x :: y :: rest => (x :: (split rest).1, y :: (split rest).2)

/-- `pad_if_necessary` (src/src/fft.rs lines 31–41).  `len & (len - 1) == 0`
is the source's power-of-two test (with `usize` wrap-around, `len = 0` also
passes it); a non-power-of-two buffer is extended with zeros to size
`2 ^ (⌊log₂ len⌋ + 1)`.  The source computes the exponent with `f64`
`log2`/`floor`, exact on realistic sizes; here `Nat.log 2`. -/
def pad_if_necessary (v : List ℂ) : List ℂ :=
  let len := v.length
  if len &&& (len - 1) = 0 then v
  else v ++ List.replicate (2 ^ (Nat.log 2 len + 1) - len) 0

/-- One iteration of the in-place butterfly loop of `fft_general`
(src/src/fft.rs lines 72–81): read `x_k = result[k]` and the
not-yet-overwritten odd-half value `result[k + n/2]`, then write
`result[k] = x_k + w*y` and `result[k + n/2] = x_k - w*y`. -/
def butterflyStep (inverse : Bool) (n k : ℕ) (r : List ℂ) : List ℂ :=
  let x_k := r.getD k 0
  let w := if inverse then exp_i (2 * Real.pi * ((k : ℝ) / (n : ℝ)))
           else exp_i (-2 * Real.pi * ((k : ℝ) / (n : ℝ)))
  let r1 := r.set k (x_k + w * r.getD (k + n / 2) 0)
  r1.set (k + n / 2) (x_k - w * r1.getD (k + n / 2) 0)

/-- The `for k in 0 .. n/2` butterfly loop of `fft_general`
(src/src/fft.rs lines 72–81). -/
def butterflies (inverse : Bool) (n : ℕ) (r : List ℂ) : List ℂ :=
  (List.range (n / 2)).foldl (fun acc k => butterflyStep inverse n k acc) r

/-- Fuel-indexed embedding of `fft_general` (src/src/fft.rs lines 64–84):
base case `n == 1`, otherwise split, recurse on both halves, concatenate
even-half first, run the butterfly loop.  `none` models a recursion that
needs more than `fuel` nested calls — on a length-0 buffer the split
returns two length-0 buffers and the base case is never reached. -/
def fft_general_fuel : ℕ → List ℂ → Bool → Option (List ℂ)
  | 0, _, _ => none
  | fuel + 1, v, inverse =>
    if v.length = 1 then some v
    else
      match fft_general_fuel fuel (split v).1 inverse,
            fft_general_fuel fuel (split v).2 inverse with
      | some e, some o => some (butterflies inverse v.length (e ++ o))
      | _, _ => none

theorem split_length (l : List ℂ) :
    (split l).1.length = (l.length + 1) / 2 ∧ (split l).2.length = l.length / 2 := by
  induction l using split.induct with
  | case1 => simp [split]
  | case2 x => simp [split]
  | case3 x y rest ih =>
    simp only [split, List.length_cons]
    omega

/-- Total version of `fft_general`; on the empty buffer — where the source
recursion diverges, see `fft_general_fuel` — it returns `[]` as an
unreachable-in-the-source junk value. -/
def fft_general (v : List ℂ) (inverse : Bool) : List ℂ :=
  if v.length ≤ 1 then v
  else
    butterflies inverse v.length
      (fft_general (split v).1 inverse ++ fft_general (split v).2 inverse)
termination_by v.length
decreasing_by
  · have h := split_length v
    omega
  · have h := split_length v
    omega

/-- `fft` (src/src/fft.rs lines 50–52): normalise (pad) the input, then run
the forward transform. -/
def fft (v : List ℂ) : List ℂ := fft_general (pad_if_necessary v) false

/-- `ifft` (src/src/fft.rs lines 54–62): normalise, run the inverse-flagged
transform, then scale every component by `1/n` where `n` is the padded
length. -/
def ifft (v : List ℂ) : List ℂ :=
  let w := pad_if_necessary v
  let n : ℝ := w.length
  (fft_general w true).map fun c => (⟨c.re / n, c.im / n⟩ : ℂ)

/-- The `From<Vec<f64>>` real-to-complex lifting (src/src/fft.rs
lines 43–48): each sample `x` becomes `Complex::new(x, 0.0)`. -/
def toComplexList (v : List ℝ) : List ℂ := v.map fun x => (⟨x, 0⟩ : ℂ)

/-- `FrequencyComponent` (src/src/analysis.rs lines 5–8). -/
structure FrequencyComponent where
  f : ℝ
  coeff : ℝ

/-- `slice::windows(3)` specialised to width 3, as used by
`get_primary_frequencies` (src/src/analysis.rs line 18). -/
def windows3 : List ℝ → List (ℝ × ℝ × ℝ)
  | a :: b :: c :: rest => (a, b, c) :: windows3 (b :: c :: rest)
  | _ => []

/-- `get_primary_frequencies` (src/src/analysis.rs lines 10–29).  Note that
`n` is the *original* sample count: it is used for the bin size, for the
magnitude normalisation and for the `take (n/2)` half-spectrum bound, even
though `fft` pads the buffer internally. -/
def get_primary_frequencies (samples : List ℝ) (sample_rate : ℕ)
    (threshold : ℝ) : List FrequencyComponent :=
  let n := samples.length
  let bin_size := (sample_rate : ℝ) / (n : ℝ)
  let freq_domain := ((fft (toComplexList samples)).map fun s => mag s / (n : ℝ)).take (n / 2)
  (windows3 freq_domain).enum.filterMap fun p =>
    let k_prev := p.1
    let prev := p.2.1
    let curr := p.2.2.1
    let next := p.2.2.2
    if curr > threshold ∧ curr > prev ∧ curr > next then
      some ⟨((k_prev + 1 : ℕ) : ℝ) * bin_size, curr⟩
    else none

/-- `get_primary_frequencies` with the fuel of the inner `fft` recursion
threaded through; `none` models the non-terminating transform on an empty
sample list. -/
def get_primary_frequencies_fuel (fuel : ℕ) (samples : List ℝ)
    (sample_rate : ℕ) (threshold : ℝ) : Option (List FrequencyComponent) :=
  let n := samples.length
  let bin_size := (sample_rate : ℝ) / (n : ℝ)
  (fft_general_fuel fuel (pad_if_necessary (toComplexList samples)) false).map fun res =>
    let freq_domain := (res.map fun s => mag s / (n : ℝ)).take (n / 2)
    (windows3 freq_domain).enum.filterMap fun p =>
      let k_prev := p.1
      let prev := p.2.1
      let curr := p.2.2.1
      let next := p.2.2.2
      if curr > threshold ∧ curr > prev ∧ curr > next then
        some ⟨((k_prev + 1 : ℕ) : ℝ) * bin_size, curr⟩
      else none

namespace LibCrate

/-!
The private duplicate of the FFT implementation in `src/src/lib.rs`
(lines 14–90), over the field `v` instead of `data`.  Its bodies differ
from `src/src/fft.rs` only in naming and in binding the two recursive
results (`even_fft`, `odd_fft`) before extending. -/

/-- `FFTVec::split` (src/src/lib.rs lines 15–27). -/
def split : List ℂ → List ℂ × List ℂ
  | [] => ([], [])
  | [x] => ([x], [])
  | x :: y :: rest => (x :: (split rest).1, y :: (split rest).2)

/-- `pad_if_necessary` (src/src/lib.rs lines 35–45). -/
def pad_if_necessary (v : List ℂ) : List ℂ :=
  let len := v.length
  if len &&& (len - 1) = 0 then v
  else v ++ List.replicate (2 ^ (Nat.log 2 len + 1) - len) 0

/-- The butterfly loop body of `fft_general` (src/src/lib.rs lines 78–87). -/
def butterflyStep (inverse : Bool) (n k : ℕ) (r : List ℂ) : List ℂ :=
  let x_k := r.getD k 0
  let w := if inverse then exp_i (2 * Real.pi * ((k : ℝ) / (n : ℝ)))
           else exp_i (-2 * Real.pi * ((k : ℝ) / (n : ℝ)))
  let r1 := r.set k (x_k + w * r.getD (k + n / 2) 0)
  r1.set (k + n / 2) (x_k - w * r1.getD (k + n / 2) 0)

/-- The `for k in 0 .. n/2` butterfly loop (src/src/lib.rs lines 78–87). -/
def butterflies (inverse : Bool) (n : ℕ) (r : List ℂ) : List ℂ :=
  (List.range (n / 2)).foldl (fun acc k => butterflyStep inverse n k acc) r

/-- Fuel-indexed embedding of `fft_general` (src/src/lib.rs lines 68–90):
the recursive results are bound as `even_fft` and `odd_fft`, and the
working buffer extends `even_fft` with the drained `odd_fft`. -/
def fft_general_fuel : ℕ → List ℂ → Bool → Option (List ℂ)
  | 0, _, _ => none
  | fuel + 1, vec, inverse =>
    if vec.length = 1 then some vec
    else
      match fft_general_fuel fuel (split vec).1 inverse,
            fft_general_fuel fuel (split vec).2 inverse with
      | some even_fft, some odd_fft =>
        some (butterflies inverse vec.length (even_fft ++ odd_fft))
      | _, _ => none

theorem lib_split_length_internal (l : List ℂ) :
    (split l).1.length = (l.length + 1) / 2 ∧ (split l).2.length = l.length / 2 := by
  induction l using split.induct with
  | case1 => simp [split]
  | case2 x => simp [split]
  | case3 x y rest ih =>
    simp only [split, List.length_cons]
    omega

/-- Total version of lib.rs's `fft_general`, junk `[]` on the empty buffer. -/
def fft_general (vec : List ℂ) (inverse : Bool) : List ℂ :=
  if vec.length ≤ 1 then vec
  else
    butterflies inverse vec.length
      (fft_general (split vec).1 inverse ++ fft_general (split vec).2 inverse)
termination_by vec.length
decreasing_by
  · have h := lib_split_length_internal vec
    omega
  · have h := lib_split_length_internal vec
    omega

/-- `fft` (src/src/lib.rs lines 54–56). -/
def fft (v : List ℂ) : List ℂ := fft_general (pad_if_necessary v) false

/-- `ifft` (src/src/lib.rs lines 58–66). -/
def ifft (v : List ℂ) : List ℂ :=
  let w := pad_if_necessary v
  let n : ℝ := w.length
  (fft_general w true).map fun c => (⟨c.re / n, c.im / n⟩ : ℂ)

end LibCrate

/-!
## Definitions following the spec's words

These are *not* translations of the source; each follows the sentence of
the spec named in its doc comment, for comparison with the source
embedding. -/

/-- The plain DFT with sign `s` in the exponent: component `k` is
`Σ_j v_j · e^{s·2π·i·jk/n}`.  This is the defining formula of §4.3
("complex frequency-domain coefficients in standard FFT bin order");
`s = -1` is the forward transform, `s = +1` the inverse kernel. -/
def dft (s : ℝ) (v : List ℂ) : List ℂ :=
  (List.range v.length).map fun k =>
    ∑ j ∈ Finset.range v.length,
      v.getD j 0 * exp_i (s * (2 * Real.pi) * (((j * k : ℕ) : ℝ) / (v.length : ℝ)))

/-- The recursion of §4.3 with the twiddle-factor sign `s` as an explicit
parameter (`w = e^{s·2πi·k/N}`): the claim C6 says the forward and inverse
recursions are this one function at `s = -1` and `s = +1`. -/
def fftSigned (s : ℝ) (v : List ℂ) : List ℂ :=
  if v.length ≤ 1 then v
  else
    (List.range (v.length / 2)).foldl
      (fun acc k =>
        let x_k := acc.getD k 0
        let w := exp_i (s * (2 * Real.pi) * ((k : ℝ) / (v.length : ℝ)))
        let r1 := acc.set k (x_k + w * acc.getD (k + v.length / 2) 0)
        r1.set (k + v.length / 2) (x_k - w * r1.getD (k + v.length / 2) 0))
      (fftSigned s (split v).1 ++ fftSigned s (split v).2)
termination_by v.length
decreasing_by
  · have h := split_length v
    omega
  · have h := split_length v
    omega

/-- The peak-selection rule in the words of the claim C7 / spec §4.4: over
the half-spectrum `mags` the detector reports bin `k` iff `k` is neither
the first nor the last bin, its magnitude exceeds the threshold and is
strictly greater than both immediate neighbours; the report carries
`f = k · bin_size` and the bin's magnitude, in increasing bin order. -/
def peaksByTheSpec (samples : List ℝ) (sample_rate : ℕ)
    (threshold : ℝ) : List FrequencyComponent :=
  let n := samples.length
  let bin_size := (sample_rate : ℝ) / (n : ℝ)
  let mags := ((fft (toComplexList samples)).map fun s => mag s / (n : ℝ)).take (n / 2)
  (List.range mags.length).filterMap fun k =>
    if 1 ≤ k ∧ k + 1 < mags.length ∧ mags.getD k 0 > threshold ∧
        mags.getD k 0 > mags.getD (k - 1) 0 ∧ mags.getD k 0 > mags.getD (k + 1) 0 then
      some ⟨(k : ℝ) * bin_size, mags.getD k 0⟩
    else none

/-- The peak detector in the words of the claim C3: the *padded* length is
used for the bin size, for the magnitude normalisation and for the
half-spectrum iteration bound. -/
def peaksWithPaddedLength (samples : List ℝ) (sample_rate : ℕ)
    (threshold : ℝ) : List FrequencyComponent :=
  let padded := pad_if_necessary (toComplexList samples)
  let np := padded.length
  let bin_size := (sample_rate : ℝ) / (np : ℝ)
  let freq_domain := ((fft_general padded false).map fun s => mag s / (np : ℝ)).take (np / 2)
  (windows3 freq_domain).enum.filterMap fun p =>
    let k_prev := p.1
    let prev := p.2.1
    let curr := p.2.2.1
    let next := p.2.2.2
    if curr > threshold ∧ curr > prev ∧ curr > next then
      some ⟨((k_prev + 1 : ℕ) : ℝ) * bin_size, curr⟩
    else none

/-!
## Basic lemmas about the embedding
-/

theorem exp_i_eq_exp (θ : ℝ) : exp_i θ = Complex.exp (θ * Complex.I) := by
  apply Complex.ext <;>
    simp [exp_i, Complex.exp_re, Complex.exp_im]

theorem exp_i_zero : exp_i 0 = 1 := by
  apply Complex.ext <;> simp [exp_i]

theorem exp_i_add (a b : ℝ) : exp_i (a + b) = exp_i a * exp_i b := by
  rw [exp_i_eq_exp, exp_i_eq_exp, exp_i_eq_exp, ← Complex.exp_add]
  congr 1
  push_cast
  ring

theorem exp_i_int_two_pi (d : ℤ) : exp_i ((d : ℝ) * (2 * Real.pi)) = 1 := by
  rw [exp_i_eq_exp]
  have h := Complex.exp_int_mul_two_pi_mul_I d
  rw [← h]
  congr 1
  push_cast
  ring

theorem exp_i_nat_mul (θ : ℝ) (m : ℕ) : exp_i ((m : ℝ) * θ) = exp_i θ ^ m := by
  rw [exp_i_eq_exp, exp_i_eq_exp, ← Complex.exp_nat_mul]
  congr 1
  push_cast
  ring

theorem split_fst_getD (l : List ℂ) : ∀ j, (split l).1.getD j 0 = l.getD (2 * j) 0 := by
  induction l using split.induct with
  | case1 => intro j; simp [split]
  | case2 x =>
    intro j
    cases j with
    | zero => simp [split]
    | succ j =>
      have h2 : 2 * (j + 1) = 2 * j + 1 + 1 := by ring
      simp [split, h2]
  | case3 x y rest ih =>
    intro j
    cases j with
    | zero => simp [split]
    | succ j =>
      have h2 : 2 * (j + 1) = 2 * j + 1 + 1 := by ring
      simp only [split, List.getD_cons_succ, h2]
      exact ih j

theorem split_snd_getD (l : List ℂ) : ∀ j, (split l).2.getD j 0 = l.getD (2 * j + 1) 0 := by
  induction l using split.induct with
  | case1 => intro j; simp [split]
  | case2 x =>
    intro j
    cases j with
    | zero => simp [split]
    | succ j =>
      have h2 : 2 * (j + 1) + 1 = 2 * j + 1 + 1 + 1 := by ring
      simp [split, h2]
  | case3 x y rest ih =>
    intro j
    cases j with
    | zero => simp [split]
    | succ j =>
      have h2 : 2 * (j + 1) + 1 = 2 * j + 1 + 1 + 1 := by ring
      simp only [split, List.getD_cons_succ, h2]
      exact ih j

theorem fft_general_fuel_eq_total :
    ∀ (fuel : ℕ) (v : List ℂ) (inverse : Bool), 1 ≤ v.length → v.length ≤ fuel →
      fft_general_fuel fuel v inverse = some (fft_general v inverse) := by
  intro fuel
  induction fuel with
  | zero => intro v inverse h1 h2; omega
  | succ fuel ih =>
    intro v inverse h1 h2
    rw [fft_general_fuel]
    by_cases hlen : v.length = 1
    · rw [if_pos hlen, fft_general, if_pos (by omega)]
    · rw [if_neg hlen]
      have hs := split_length v
      rw [ih (split v).1 inverse (by omega) (by omega),
          ih (split v).2 inverse (by omega) (by omega)]
      conv_rhs => rw [fft_general]
      rw [if_neg (by omega)]

theorem fft_general_fuel_nil (fuel : ℕ) (inverse : Bool) :
    fft_general_fuel fuel [] inverse = none := by
  induction fuel with
  | zero => rfl
  | succ fuel ih =>
    rw [fft_general_fuel]
    simp [split, ih]

/-- C9: the recursive transform terminates on every buffer of length ≥ 1
(a fuel budget equal to the length suffices, since each recursive call
receives a strictly shorter buffer down to the length-1 base case), but on
a length-0 buffer the even/odd split returns two length-0 buffers, the
base case is never reached, and no fuel budget whatsoever suffices. -/
theorem fft_general_total_iff_nonempty :
    (∀ (v : List ℂ) (inverse : Bool), 1 ≤ v.length →
        fft_general_fuel v.length v inverse = some (fft_general v inverse)) ∧
    (∀ (fuel : ℕ) (inverse : Bool), fft_general_fuel fuel [] inverse = none) :=
  ⟨fun v inverse h1 => fft_general_fuel_eq_total v.length v inverse h1 le_rfl,
   fun fuel inverse => fft_general_fuel_nil fuel inverse⟩

/-- Closed witness for `fft_general_total_iff_nonempty`. -/
theorem fft_general_total_iff_nonempty_witness :
    fft_general_fuel 1 [(1 : ℂ)] false = some (fft_general [(1 : ℂ)] false) :=
  fft_general_total_iff_nonempty.1 [(1 : ℂ)] false (by simp)

/-- C8: the transform is deterministic — its embedding is a pure function
of the input buffer, and its result does not even depend on the available
recursion budget: two runs of `transform`'s padded recursion under any two
sufficient fuel budgets return the same output. -/
theorem transform_deterministic (v : List ℂ) (f1 f2 : ℕ)
    (h1 : (pad_if_necessary v).length ≤ f1)
    (h2 : (pad_if_necessary v).length ≤ f2) :
    fft_general_fuel f1 (pad_if_necessary v) false =
      fft_general_fuel f2 (pad_if_necessary v) false := by
  rcases Nat.eq_zero_or_pos (pad_if_necessary v).length with h | h
  · have hnil : pad_if_necessary v = [] := List.length_eq_zero.mp h
    rw [hnil, fft_general_fuel_nil, fft_general_fuel_nil]
  · rw [fft_general_fuel_eq_total f1 _ false h h1,
        fft_general_fuel_eq_total f2 _ false h h2]

/-- Closed witness for `transform_deterministic`. -/
theorem transform_deterministic_witness :
    fft_general_fuel 3 (pad_if_necessary [(1 : ℂ), 2]) false =
      fft_general_fuel 7 (pad_if_necessary [(1 : ℂ), 2]) false :=
  transform_deterministic [(1 : ℂ), 2] 3 7
    (by simp [pad_if_necessary]) (by simp [pad_if_necessary])

/-- C4: `get_primary_frequencies` has no typed-error path at all.  On an
empty sample list it does not return an `InvalidInput` error: the inner
transform recursion never terminates (no fuel budget suffices).  On a
zero sample rate it does not fail either: it silently returns an ordinary
result (here the empty peak list for samples `[1, 1]`). -/
theorem find_peaks_has_no_error_path :
    (∀ fuel : ℕ, get_primary_frequencies_fuel fuel [] 44100 (1 / 2) = none) ∧
    get_primary_frequencies_fuel 2 [1, 1] 0 0 = some [] := by
  constructor
  · intro fuel
    simp [get_primary_frequencies_fuel, toComplexList, pad_if_necessary,
      fft_general_fuel_nil]
  · have hpad : pad_if_necessary (toComplexList [1, 1]) = [⟨1, 0⟩, ⟨1, 0⟩] := by
      simp [toComplexList, pad_if_necessary]
    have hfft : fft_general_fuel 2 [(⟨1, 0⟩ : ℂ), ⟨1, 0⟩] false =
        some (fft_general [(⟨1, 0⟩ : ℂ), ⟨1, 0⟩] false) :=
      fft_general_fuel_eq_total 2 _ false (by simp) (by simp)
    simp only [get_primary_frequencies_fuel, hpad, hfft, Option.map_some]
    simp [fft_general, split, butterflies, butterflyStep, windows3, exp_i_zero]

/-!
## C10: the `lib.rs` duplicate computes the same outputs
-/

theorem lib_butterflyStep_eq (inverse : Bool) (n k : ℕ) (r : List ℂ) :
    LibCrate.butterflyStep inverse n k r = butterflyStep inverse n k r := rfl

theorem lib_butterflies_eq (inverse : Bool) (n : ℕ) (r : List ℂ) :
    LibCrate.butterflies inverse n r = butterflies inverse n r := rfl

theorem lib_split_eq (l : List ℂ) : LibCrate.split l = split l := by
  induction l using split.induct with
  | case1 => rfl
  | case2 x => rfl
  | case3 x y rest ih => simp [split, LibCrate.split, ih]

theorem lib_pad_eq (v : List ℂ) :
    LibCrate.pad_if_necessary v = pad_if_necessary v := rfl

theorem lib_fft_general_fuel_eq (fuel : ℕ) :
    ∀ (v : List ℂ) (inverse : Bool),
      LibCrate.fft_general_fuel fuel v inverse = fft_general_fuel fuel v inverse := by
  induction fuel with
  | zero => intro v i; rfl
  | succ fuel ih =>
    intro v i
    rw [LibCrate.fft_general_fuel, fft_general_fuel]
    simp only [lib_split_eq, ih, lib_butterflies_eq]

theorem lib_fft_general_eq (v : List ℂ) (inverse : Bool) :
    LibCrate.fft_general v inverse = fft_general v inverse := by
  induction v, inverse using fft_general.induct with
  | case1 v i h => rw [LibCrate.fft_general, fft_general, if_pos h, if_pos h]
  | case2 v i h ih1 ih2 =>
    rw [LibCrate.fft_general, fft_general, if_neg h, if_neg h]
    rw [lib_split_eq, ih1, ih2, lib_butterflies_eq]

/-- C10: the private FFT implementation duplicated in `src/src/lib.rs`
(over field `v`) computes, for every input, exactly the same output as
the public implementation in `src/src/fft.rs` (over field `data`):
splitting, padding, the recursion (both the fuel-indexed faithful form
and the total form), `fft` and `ifft` all agree pointwise. -/
theorem lib_duplicate_equivalent :
    (∀ (fuel : ℕ) (v : List ℂ) (inverse : Bool),
        LibCrate.fft_general_fuel fuel v inverse = fft_general_fuel fuel v inverse) ∧
    (∀ (v : List ℂ) (inverse : Bool),
        LibCrate.fft_general v inverse = fft_general v inverse) ∧
    (∀ v : List ℂ, LibCrate.pad_if_necessary v = pad_if_necessary v) ∧
    (∀ l : List ℂ, LibCrate.split l = split l) ∧
    (∀ v : List ℂ, LibCrate.fft v = fft v) ∧
    (∀ v : List ℂ, LibCrate.ifft v = ifft v) := by
  refine ⟨lib_fft_general_fuel_eq, lib_fft_general_eq, lib_pad_eq, lib_split_eq, ?_, ?_⟩
  · intro v
    simp only [LibCrate.fft, fft, lib_pad_eq, lib_fft_general_eq]
  · intro v
    simp only [LibCrate.ifft, ifft, lib_pad_eq, lib_fft_general_eq]

/-!
## C6: the inverse is the sign-flipped recursion scaled by 1/N
-/

theorem signed_twiddle (inverse : Bool) (n k : ℕ) :
    exp_i ((if inverse then (1 : ℝ) else -1) * (2 * Real.pi) * ((k : ℝ) / (n : ℝ))) =
      if inverse then exp_i (2 * Real.pi * ((k : ℝ) / (n : ℝ)))
      else exp_i (-2 * Real.pi * ((k : ℝ) / (n : ℝ))) := by
  cases inverse <;> simp only [if_true, if_false, Bool.false_eq_true] <;> congr 1 <;> ring

theorem fftSigned_eq_fft_general (v : List ℂ) (inverse : Bool) :
    fftSigned (if inverse then (1 : ℝ) else -1) v = fft_general v inverse := by
  induction v, inverse using fft_general.induct with
  | case1 v i h => rw [fftSigned, fft_general, if_pos h, if_pos h]
  | case2 v i h ih1 ih2 =>
    rw [fftSigned, fft_general, if_neg h, if_neg h, ih1, ih2]
    unfold butterflies
    congr 1
    funext acc k
    rw [butterflyStep]
    simp only [signed_twiddle]

/-- C6: `ifft` runs the very same recursion as `fft` with only the
twiddle-factor sign flipped, and then scales every component by `1/N`
where `N` is the padded length: with `fftSigned s` the recursion whose
twiddle factor is `e^{s·2πi·k/N}`, the forward transform is `fftSigned (-1)`
and `ifft` is `fftSigned 1` followed by the `1/N` scaling — the sign is
the sole structural difference between the two recursions. -/
theorem ifft_is_sign_flipped_fft_scaled :
    (∀ v : List ℂ, fft_general v false = fftSigned (-1) v) ∧
    (∀ v : List ℂ, fft_general v true = fftSigned 1 v) ∧
    (∀ v : List ℂ, fft v = fftSigned (-1) (pad_if_necessary v)) ∧
    (∀ v : List ℂ,
        ifft v = (fftSigned 1 (pad_if_necessary v)).map
          fun c => (⟨c.re / ((pad_if_necessary v).length : ℝ),
                     c.im / ((pad_if_necessary v).length : ℝ)⟩ : ℂ)) := by
  have h1 : ∀ v : List ℂ, fft_general v false = fftSigned (-1) v := by
    intro v
    have := fftSigned_eq_fft_general v false
    simpa using this.symm
  have h2 : ∀ v : List ℂ, fft_general v true = fftSigned 1 v := by
    intro v
    have := fftSigned_eq_fft_general v true
    simpa using this.symm
  exact ⟨h1, h2, fun v => by rw [fft, h1], fun v => by rw [ifft, h2]⟩

/-!
## C5: padding behaviour
-/

theorem land_pred_eq_zero_of_pow2 (k : ℕ) : 2 ^ k &&& (2 ^ k - 1) = 0 := by
  apply Nat.eq_of_testBit_eq
  intro i
  simp only [Nat.testBit_land, Nat.testBit_two_pow, Nat.testBit_two_pow_sub_one,
    Nat.zero_testBit]
  by_cases h : k = i
  · subst h
    simp
  · simp [h]

theorem pow2_of_land_pred_eq_zero {n : ℕ} (h1 : 1 ≤ n) (h : n &&& (n - 1) = 0) :
    ∃ k, n = 2 ^ k := by
  refine ⟨Nat.log 2 n, ?_⟩
  by_contra hne
  have hlow : 2 ^ Nat.log 2 n ≤ n := Nat.pow_log_le_self 2 (by omega)
  have hhigh : n < 2 ^ (Nat.log 2 n + 1) := Nat.lt_pow_succ_log_self (by norm_num) n
  set k := Nat.log 2 n with hk
  have hpow : 2 ^ (k + 1) = 2 * 2 ^ k := by ring
  have hgt : 2 ^ k < n := lt_of_le_of_ne hlow fun hh => hne hh.symm
  have hb1 : n.testBit k = true := by
    rw [Nat.testBit_to_div_mod]
    have hdiv : n / 2 ^ k = 1 := by
      apply Nat.div_eq_of_lt_le (by omega)
      omega
    simp [hdiv]
  have hb2 : (n - 1).testBit k = true := by
    rw [Nat.testBit_to_div_mod]
    have hdiv : (n - 1) / 2 ^ k = 1 := by
      apply Nat.div_eq_of_lt_le (by omega)
      omega
    simp [hdiv]
  have hbit : (n &&& (n - 1)).testBit k = true := by
    rw [Nat.testBit_land, hb1, hb2]
    rfl
  rw [h] at hbit
  simp at hbit

/-- C5: on an input of length `L ≥ 1`, `pad_if_necessary` returns the input
unchanged when `L` is a power of two, and otherwise extends it (never
truncating) with zero complex numbers to the smallest power-of-two length
greater than `L`. -/
theorem pad_if_necessary_spec (v : List ℂ) (h : 1 ≤ v.length) :
    ((∃ k, v.length = 2 ^ k) → pad_if_necessary v = v) ∧
    (¬(∃ k, v.length = 2 ^ k) →
      (pad_if_necessary v).take v.length = v ∧
      (pad_if_necessary v).drop v.length =
        List.replicate ((pad_if_necessary v).length - v.length) 0 ∧
      v.length < (pad_if_necessary v).length ∧
      (∃ k, (pad_if_necessary v).length = 2 ^ k) ∧
      (∀ m : ℕ, v.length < 2 ^ m → (pad_if_necessary v).length ≤ 2 ^ m)) := by
  constructor
  · rintro ⟨k, hk⟩
    unfold pad_if_necessary
    rw [hk]
    simp [land_pred_eq_zero_of_pow2]
  · intro hnp
    have hcond : ¬(v.length &&& (v.length - 1) = 0) := fun hc =>
      hnp (pow2_of_land_pred_eq_zero h hc)
    have hpad : pad_if_necessary v =
        v ++ List.replicate (2 ^ (Nat.log 2 v.length + 1) - v.length) 0 := by
      unfold pad_if_necessary
      rw [if_neg hcond]
    have hhigh : v.length < 2 ^ (Nat.log 2 v.length + 1) :=
      Nat.lt_pow_succ_log_self (by norm_num) v.length
    have hlow : 2 ^ Nat.log 2 v.length ≤ v.length := Nat.pow_log_le_self 2 (by omega)
    have hlen : (pad_if_necessary v).length = 2 ^ (Nat.log 2 v.length + 1) := by
      rw [hpad]
      simp only [List.length_append, List.length_replicate]
      omega
    refine ⟨?_, ?_, ?_, ⟨Nat.log 2 v.length + 1, hlen⟩, ?_⟩
    · rw [hpad, List.take_left]
    · rw [hpad, List.drop_left]
      congr 1
      simp only [List.length_append, List.length_replicate]
      omega
    · omega
    · intro m hm
      rw [hlen]
      have hlt : Nat.log 2 v.length < m := by
        by_contra hge
        have : 2 ^ m ≤ 2 ^ Nat.log 2 v.length := Nat.pow_le_pow_right (by norm_num) (by omega)
        omega
      exact Nat.pow_le_pow_right (by norm_num) (by omega)

/-- Closed witness for `pad_if_necessary_spec` at the length-3 input
`[1, 0, 0]`, padded to length 4. -/
theorem pad_if_necessary_spec_witness :
    ((∃ k, ([(1 : ℂ), 0, 0] : List ℂ).length = 2 ^ k) →
      pad_if_necessary [(1 : ℂ), 0, 0] = [(1 : ℂ), 0, 0]) ∧
    (¬(∃ k, ([(1 : ℂ), 0, 0] : List ℂ).length = 2 ^ k) →
      (pad_if_necessary [(1 : ℂ), 0, 0]).take ([(1 : ℂ), 0, 0] : List ℂ).length =
        [(1 : ℂ), 0, 0] ∧
      (pad_if_necessary [(1 : ℂ), 0, 0]).drop ([(1 : ℂ), 0, 0] : List ℂ).length =
        List.replicate
          ((pad_if_necessary [(1 : ℂ), 0, 0]).length - ([(1 : ℂ), 0, 0] : List ℂ).length) 0 ∧
      ([(1 : ℂ), 0, 0] : List ℂ).length < (pad_if_necessary [(1 : ℂ), 0, 0]).length ∧
      (∃ k, (pad_if_necessary [(1 : ℂ), 0, 0]).length = 2 ^ k) ∧
      (∀ m : ℕ, ([(1 : ℂ), 0, 0] : List ℂ).length < 2 ^ m →
        (pad_if_necessary [(1 : ℂ), 0, 0]).length ≤ 2 ^ m)) :=
  pad_if_necessary_spec [(1 : ℂ), 0, 0] (by simp)

/-!
## C2: the known test vector
-/

theorem exp_i_neg_quarter_turn : exp_i (-(2 * Real.pi * ((1 : ℝ) / 4))) = ⟨0, -1⟩ := by
  have ha : -(2 * Real.pi * ((1 : ℝ) / 4)) = -(Real.pi / 2) := by ring
  rw [ha]
  apply Complex.ext <;>
    simp [exp_i, Real.cos_pi_div_two, Real.sin_pi_div_two]

/-- C2: `transform` on the four-element vector
`[1, 2-i, -i, -1+2i]` returns exactly `[2, -2-2i, -2i, 4+4i]`
(the `fft_simple` test vector of src/src/fft.rs). -/
theorem fft_known_vector :
    fft [(⟨1, 0⟩ : ℂ), ⟨2, -1⟩, ⟨0, -1⟩, ⟨-1, 2⟩] =
      [⟨2, 0⟩, ⟨-2, -2⟩, ⟨0, -2⟩, ⟨4, 4⟩] := by
  have hpad : pad_if_necessary [(⟨1, 0⟩ : ℂ), ⟨2, -1⟩, ⟨0, -1⟩, ⟨-1, 2⟩] =
      [(⟨1, 0⟩ : ℂ), ⟨2, -1⟩, ⟨0, -1⟩, ⟨-1, 2⟩] := by
    unfold pad_if_necessary
    norm_num
    intro hc
    exact absurd rfl hc
  rw [fft, hpad]
  simp [fft_general, split, butterflies, butterflyStep, List.range_succ,
    exp_i_zero, Complex.ext_iff]
  norm_num [exp_i_neg_quarter_turn]

/-!
## C7: the peak-selection rule
-/

theorem windows3_enumFrom (l : List ℝ) : ∀ i : ℕ,
    (windows3 l).enumFrom i =
      (List.range (l.length - 2)).map
        fun k => (i + k, (l.getD k 0, l.getD (k + 1) 0, l.getD (k + 2) 0)) := by
  induction l using windows3.induct with
  | case1 a b c rest ih =>
    intro i
    rw [windows3, List.enumFrom_cons, ih (i + 1)]
    have hlen : (a :: b :: c :: rest).length - 2 = ((b :: c :: rest).length - 2) + 1 := by
      simp
    rw [hlen, List.range_succ_eq_map, List.map_cons, List.map_map]
    rw [List.cons.injEq]
    refine ⟨by simp, ?_⟩
    refine List.map_congr_left fun k hk => ?_
    have h2 : ∀ m : ℕ, m + 2 = m + 1 + 1 := fun m => rfl
    have h3 : ∀ m : ℕ, m + 3 = m + 2 + 1 := fun m => rfl
    simp only [Function.comp_apply, Nat.succ_eq_add_one, h2, h3,
      List.getD_cons_succ, Prod.mk.injEq]
    exact ⟨by omega, trivial⟩
  | case2 l hl =>
    intro i
    match l, hl with
    | [], _ => simp [windows3]
    | [x], _ => simp [windows3]
    | [x, y], _ => simp [windows3]
    | x :: y :: z :: rest, hl => exact absurd rfl (hl x y z rest)

theorem filterMap_range_shift {β : Type} (h : ℕ) (F : ℕ → Option β)
    (h0 : h = 0 ∨ F 0 = none) (hlast : ∀ k, h ≤ k + 2 → F (k + 1) = none) :
    (List.range h).filterMap F = (List.range (h - 2)).filterMap fun k => F (k + 1) := by
  match h, h0 with
  | 0, _ => simp
  | h + 1, Or.inr hF0 =>
    cases h with
    | zero => simp [List.filterMap_cons, hF0]
    | succ h =>
      rw [List.range_succ, List.range_succ_eq_map, List.filterMap_append,
        List.filterMap_cons, hF0]
      have hne : F (h + 1) = none := hlast h (by omega)
      simp only [List.filterMap_cons, hne, List.filterMap_nil, List.append_nil]
      rw [List.filterMap_map]
      have harith : h + 1 + 1 - 2 = h := by omega
      rw [harith]
      rfl

/-- C7: a bin of the half-spectrum is reported by `get_primary_frequencies`
iff it is neither the first nor the last bin, its magnitude exceeds the
threshold, and its magnitude strictly exceeds both immediate neighbours;
each report carries `f = bin · bin_size` and the bin's magnitude, and the
reports appear in increasing bin order — i.e. the detector coincides with
the spec-worded selection rule `peaksByTheSpec`. -/
theorem peak_selection_rule (samples : List ℝ) (sample_rate : ℕ) (threshold : ℝ)
    (_h : samples ≠ []) :
    get_primary_frequencies samples sample_rate threshold =
      peaksByTheSpec samples sample_rate threshold := by
  unfold get_primary_frequencies peaksByTheSpec
  simp only []
  generalize ((fft (toComplexList samples)).map
    fun s => mag s / (samples.length : ℝ)).take (samples.length / 2) = mags
  generalize (sample_rate : ℝ) / (samples.length : ℝ) = bin_size
  have henum : (windows3 mags).enum = (windows3 mags).enumFrom 0 := rfl
  rw [henum, windows3_enumFrom mags 0, List.filterMap_map]
  rw [filterMap_range_shift mags.length _ ?_ ?_]
  · refine (List.filterMap_congr fun k hk => ?_).symm
    have hklt : k < mags.length - 2 := List.mem_range.mp hk
    have hguard : (1 ≤ k + 1 ∧ k + 1 + 1 < mags.length ∧ mags.getD (k + 1) 0 > threshold ∧
        mags.getD (k + 1) 0 > mags.getD (k + 1 - 1) 0 ∧
        mags.getD (k + 1) 0 > mags.getD (k + 1 + 1) 0) ↔
        (mags.getD (k + 1) 0 > threshold ∧ mags.getD (k + 1) 0 > mags.getD k 0 ∧
         mags.getD (k + 1) 0 > mags.getD (k + 2) 0) := by
      have e1 : k + 1 - 1 = k := by omega
      have e2 : k + 1 + 1 = k + 2 := by omega
      rw [e1, e2]
      constructor
      · rintro ⟨-, -, a, b, c⟩
        exact ⟨a, b, c⟩
      · rintro ⟨a, b, c⟩
        exact ⟨by omega, by omega, a, b, c⟩
    simp only [Function.comp_apply, Nat.zero_add, hguard]
  · by_cases hz : mags.length = 0
    · exact Or.inl hz
    · refine Or.inr ?_
      rw [if_neg]
      rintro ⟨h1, -⟩
      omega
  · intro k hk
    rw [if_neg]
    rintro ⟨-, h2, -⟩
    omega

/-- Closed witness for `peak_selection_rule` at samples `[1, 1]`. -/
theorem peak_selection_rule_witness :
    get_primary_frequencies [1, 1] 2 0 = peaksByTheSpec [1, 1] 2 0 :=
  peak_selection_rule [1, 1] 2 0 (by simp)

/-!
## C3: the peak detector and the padded length
-/

theorem mag_zero_complex : mag 0 = 0 := by
  simp [mag]

theorem mag_two_real : mag ⟨2, 0⟩ = 2 := by
  simp only [mag]
  norm_num
  rw [show (4 : ℝ) = 2 ^ 2 by norm_num]
  exact Real.sqrt_sq (by norm_num)

theorem c3_pad_eval :
    pad_if_necessary (toComplexList [1, 0, 0, 0, -1, 0, 0]) =
      [(⟨1, 0⟩ : ℂ), 0, 0, 0, ⟨-1, 0⟩, 0, 0, 0] := by
  have hlog : Nat.log 2 7 = 2 :=
    Nat.log_eq_of_pow_le_of_lt_pow (by norm_num) (by norm_num)
  unfold toComplexList pad_if_necessary
  simp only [List.map_cons, List.map_nil, List.length_cons, List.length_nil]
  rw [if_neg (by decide), hlog]
  norm_num [Complex.ext_iff, List.replicate]

theorem c3_fft_general_eval :
    fft_general [(⟨1, 0⟩ : ℂ), 0, 0, 0, ⟨-1, 0⟩, 0, 0, 0] false =
      [0, ⟨2, 0⟩, 0, ⟨2, 0⟩, 0, ⟨2, 0⟩, 0, ⟨2, 0⟩] := by
  simp [fft_general, split, butterflies, butterflyStep, List.range_succ,
    exp_i_zero, Complex.ext_iff]
  norm_num [exp_i_neg_quarter_turn]

theorem c3_fft_eval :
    fft (toComplexList [1, 0, 0, 0, -1, 0, 0]) =
      [0, ⟨2, 0⟩, 0, ⟨2, 0⟩, 0, ⟨2, 0⟩, 0, ⟨2, 0⟩] := by
  rw [fft, c3_pad_eval, c3_fft_general_eval]

/-- C3 (evidence of the divergence): on the length-7 input
`[1, 0, 0, 0, -1, 0, 0]` with sample rate 56 and threshold 0,
`get_primary_frequencies` uses the *original* count 7 — bin size
`56/7 = 8`, magnitudes divided by 7, `7/2 = 3` bins kept — and reports
`(f = 8, coeff = 2/7)`, whereas the padded-length rule the claim states
(`peaksWithPaddedLength`, with `N_padded = 8`) reports `(f = 7, coeff = 1/4)`. -/
theorem find_peaks_uses_original_length :
    get_primary_frequencies [1, 0, 0, 0, -1, 0, 0] 56 0 =
      [⟨8, 2 / 7⟩] ∧
    peaksWithPaddedLength [1, 0, 0, 0, -1, 0, 0] 56 0 =
      [⟨7, 1 / 4⟩] ∧
    get_primary_frequencies [1, 0, 0, 0, -1, 0, 0] 56 0 ≠
      peaksWithPaddedLength [1, 0, 0, 0, -1, 0, 0] 56 0 := by
  have hA : get_primary_frequencies [1, 0, 0, 0, -1, 0, 0] 56 0 = [⟨8, 2 / 7⟩] := by
    unfold get_primary_frequencies
    simp only [c3_fft_eval]
    norm_num [mag_zero_complex, mag_two_real, windows3]
    rw [List.filterMap_cons_some (by rw [if_pos (by norm_num)])]
    norm_num [FrequencyComponent.mk.injEq]
  have hB : peaksWithPaddedLength [1, 0, 0, 0, -1, 0, 0] 56 0 = [⟨7, 1 / 4⟩] := by
    unfold peaksWithPaddedLength
    simp only [c3_pad_eval, c3_fft_general_eval]
    norm_num [mag_zero_complex, mag_two_real, windows3, List.enum, List.enumFrom]
    rw [List.filterMap_cons_some (by rw [if_pos (by norm_num)]),
      List.filterMap_cons_none (by rw [if_neg (by norm_num)])]
    norm_num [FrequencyComponent.mk.injEq]
  refine ⟨hA, hB, ?_⟩
  rw [hA, hB]
  intro hc
  have := List.head_eq_of_cons_eq hc
  rw [FrequencyComponent.mk.injEq] at this
  norm_num at this

/-!
## C1 stage 1: a closed form for the butterfly loop
-/

/-- The twiddle factor of the butterfly loop, as written in
`fft_general` (src/src/fft.rs lines 74–78). -/
def twiddle (inverse : Bool) (n k : ℕ) : ℂ :=
  if inverse then exp_i (2 * Real.pi * ((k : ℝ) / (n : ℝ)))
  else exp_i (-2 * Real.pi * ((k : ℝ) / (n : ℝ)))

theorem getD_eq_get (l : List ℂ) (j : ℕ) (h : j < l.length) : l.getD j 0 = l[j] := by
  simp [List.getD_eq_getElem?_getD, List.getElem?_eq_getElem h]

theorem getD_set_ne (r : List ℂ) (i j : ℕ) (h : i ≠ j) (x : ℂ) :
    (r.set i x).getD j 0 = r.getD j 0 := by
  simp [List.getD_eq_getElem?_getD, List.getElem?_set_ne h]

theorem butterflyStep_twiddle (inverse : Bool) (n k : ℕ) (hk : k ≠ k + n / 2)
    (r : List ℂ) :
    butterflyStep inverse n k r =
      (r.set k (r.getD k 0 + twiddle inverse n k * r.getD (k + n / 2) 0)).set (k + n / 2)
        (r.getD k 0 - twiddle inverse n k * r.getD (k + n / 2) 0) := by
  simp only [butterflyStep, twiddle]
  rw [getD_set_ne r k (k + n / 2) hk]

theorem getD_map_range (L : ℕ) (f : ℕ → ℂ) (i : ℕ) (hi : i < L) :
    ((List.range L).map f).getD i 0 = f i := by
  rw [getD_eq_get _ _ (by simpa using hi)]
  simp

theorem set_map_range {L m : ℕ} (f : ℕ → ℂ) (x : ℂ) (_hm : m < L) :
    ((List.range L).map f).set m x =
      (List.range L).map fun k => if k = m then x else f k := by
  apply List.ext_getElem
  · simp
  · intro i h1 h2
    simp only [List.getElem_set, List.getElem_map, List.getElem_range]
    by_cases him : m = i
    · subst him
      simp
    · rw [if_neg him, if_neg fun hc => him hc.symm]

theorem append_eq_map_range (L : ℕ) (a b : List ℂ) (ha : a.length = L)
    (hb : b.length = L) :
    a ++ b = (List.range (2 * L)).map fun k =>
      if k < L then a.getD k 0 else b.getD (k - L) 0 := by
  subst ha
  apply List.ext_getElem
  · simp only [List.length_append, List.length_map, List.length_range]
    omega
  · intro i h1 h2
    simp only [List.length_append] at h1
    simp only [List.length_map, List.length_range] at h2
    simp only [List.getElem_map, List.getElem_range]
    by_cases hi : i < a.length
    · rw [List.getElem_append_left (by omega), if_pos hi, getD_eq_get a i (by omega)]
    · rw [List.getElem_append_right (by omega), if_neg hi,
        getD_eq_get b (i - a.length) (by omega)]

theorem butterflies_loop_inv (inverse : Bool) (L : ℕ) (a b : List ℂ)
    (ha : a.length = L) (hb : b.length = L) :
    ∀ m, m ≤ L →
      (List.range m).foldl (fun acc k => butterflyStep inverse (2 * L) k acc) (a ++ b) =
        (List.range (2 * L)).map fun k =>
          if k < L then
            (if k < m then a.getD k 0 + twiddle inverse (2 * L) k * b.getD k 0
             else a.getD k 0)
          else
            (if k - L < m then
               a.getD (k - L) 0 - twiddle inverse (2 * L) (k - L) * b.getD (k - L) 0
             else b.getD (k - L) 0) := by
  intro m
  induction m with
  | zero =>
    intro _
    simp only [List.range_zero, List.foldl_nil]
    simpa using append_eq_map_range L a b ha hb
  | succ m ihm =>
    intro hm1
    have hmL : m < L := by omega
    rw [List.range_succ, List.foldl_append, ihm (by omega)]
    simp only [List.foldl_cons, List.foldl_nil]
    rw [butterflyStep_twiddle inverse (2 * L) m (by omega)]
    have h2L : 2 * L / 2 = L := by omega
    rw [h2L]
    rw [getD_map_range (2 * L) _ m (by omega), getD_map_range (2 * L) _ (m + L) (by omega)]
    have hmm : ¬ m < m := by omega
    have hml : ¬ m + L < L := by omega
    have hmsub : m + L - L = m := by omega
    simp only [hmL, if_true, hmm, if_false, hml, hmsub]
    rw [set_map_range _ _ (show m < 2 * L by omega),
      set_map_range _ _ (show m + L < 2 * L by omega)]
    refine List.map_congr_left fun k hk => ?_
    have hk2 : k < 2 * L := List.mem_range.mp hk
    by_cases hkm : k = m
    · subst hkm
      have h1 : ¬ k = k + L := by omega
      simp [h1, hmL]
    · by_cases hkml : k = m + L
      · subst hkml
        have h1 : ¬ m + L < L := by omega
        have h2 : m + L - L = m := by omega
        simp [h1, h2]
      · rw [if_neg hkml, if_neg hkm]
        by_cases hkL : k < L
        · have h1 : k < m + 1 ↔ k < m := by omega
          simp [hkL, h1]
        · have h1 : k - L < m + 1 ↔ k - L < m := by omega
          simp [hkL, h1]

theorem butterflies_eq (inverse : Bool) (L : ℕ) (a b : List ℂ)
    (ha : a.length = L) (hb : b.length = L) :
    butterflies inverse (2 * L) (a ++ b) =
      ((List.range L).map fun k =>
        a.getD k 0 + twiddle inverse (2 * L) k * b.getD k 0) ++
      ((List.range L).map fun k =>
        a.getD k 0 - twiddle inverse (2 * L) k * b.getD k 0) := by
  unfold butterflies
  have h2L : 2 * L / 2 = L := by omega
  rw [h2L, butterflies_loop_inv inverse L a b ha hb L le_rfl]
  have hsum : 2 * L = L + L := by omega
  rw [hsum, List.range_add, List.map_append, List.map_map]
  congr 1
  · refine List.map_congr_left fun k hk => ?_
    have hkL := List.mem_range.mp hk
    simp [hkL]
  · refine List.map_congr_left fun k hk => ?_
    have hkL := List.mem_range.mp hk
    have h1 : ¬ L + k < L := by omega
    have h2 : L + k - L = k := by omega
    simp only [Function.comp_apply, h1, if_false, h2, hkL, if_true]

/-!
## C1 stage 2: the recursion computes the signed DFT
-/

theorem sum_range_even_odd (m : ℕ) (f : ℕ → ℂ) :
    ∑ j ∈ Finset.range (2 * m), f j =
      (∑ j ∈ Finset.range m, f (2 * j)) + ∑ j ∈ Finset.range m, f (2 * j + 1) := by
  induction m with
  | zero => simp
  | succ m ih =>
    have h : 2 * (m + 1) = 2 * m + 1 + 1 := by ring
    rw [h, Finset.sum_range_succ, Finset.sum_range_succ, Finset.sum_range_succ,
      Finset.sum_range_succ, ih]
    ring

theorem exp_i_s_two_pi_nat (s : ℝ) (hs : s = 1 ∨ s = -1) (j : ℕ) :
    exp_i (s * (2 * Real.pi) * (j : ℝ)) = 1 := by
  rcases hs with rfl | rfl
  · rw [← exp_i_int_two_pi (j : ℤ)]
    congr 1
    push_cast
    ring
  · rw [← exp_i_int_two_pi (-(j : ℤ))]
    congr 1
    push_cast
    ring

theorem exp_i_s_pi (s : ℝ) (hs : s = 1 ∨ s = -1) : exp_i (s * Real.pi) = -1 := by
  rcases hs with rfl | rfl
  · rw [one_mul]
    apply Complex.ext <;> simp [exp_i]
  · rw [show (-1 : ℝ) * Real.pi = -Real.pi by ring]
    apply Complex.ext <;> simp [exp_i]

theorem dft_term_even_lt (s : ℝ) (L j t : ℕ) (hL : 0 < L) :
    exp_i (s * (2 * Real.pi) * (((2 * j * t : ℕ) : ℝ) / ((2 * L : ℕ) : ℝ))) =
      exp_i (s * (2 * Real.pi) * (((j * t : ℕ) : ℝ) / ((L : ℕ) : ℝ))) := by
  have hLr : ((L : ℕ) : ℝ) ≠ 0 := Nat.cast_ne_zero.mpr (by omega)
  congr 1
  push_cast
  field_simp
  ring

theorem dft_term_odd_lt (s : ℝ) (L j t : ℕ) (hL : 0 < L) :
    exp_i (s * (2 * Real.pi) * ((((2 * j + 1) * t : ℕ) : ℝ) / ((2 * L : ℕ) : ℝ))) =
      exp_i (s * (2 * Real.pi) * ((t : ℝ) / ((2 * L : ℕ) : ℝ))) *
        exp_i (s * (2 * Real.pi) * (((j * t : ℕ) : ℝ) / ((L : ℕ) : ℝ))) := by
  rw [← exp_i_add]
  have hLr : ((L : ℕ) : ℝ) ≠ 0 := Nat.cast_ne_zero.mpr (by omega)
  congr 1
  push_cast
  field_simp
  ring

theorem dft_term_even_ge (s : ℝ) (hs : s = 1 ∨ s = -1) (L j u : ℕ) (hL : 0 < L) :
    exp_i (s * (2 * Real.pi) * (((2 * j * (L + u) : ℕ) : ℝ) / ((2 * L : ℕ) : ℝ))) =
      exp_i (s * (2 * Real.pi) * (((j * u : ℕ) : ℝ) / ((L : ℕ) : ℝ))) := by
  have hLr : ((L : ℕ) : ℝ) ≠ 0 := Nat.cast_ne_zero.mpr (by omega)
  have hangle : s * (2 * Real.pi) * (((2 * j * (L + u) : ℕ) : ℝ) / ((2 * L : ℕ) : ℝ)) =
      s * (2 * Real.pi) * (((j * u : ℕ) : ℝ) / ((L : ℕ) : ℝ)) +
        s * (2 * Real.pi) * (j : ℝ) := by
    push_cast
    field_simp
    ring
  rw [hangle, exp_i_add, exp_i_s_two_pi_nat s hs j, mul_one]

theorem dft_term_odd_ge (s : ℝ) (hs : s = 1 ∨ s = -1) (L j u : ℕ) (hL : 0 < L) :
    exp_i (s * (2 * Real.pi) * ((((2 * j + 1) * (L + u) : ℕ) : ℝ) / ((2 * L : ℕ) : ℝ))) =
      -(exp_i (s * (2 * Real.pi) * ((u : ℝ) / ((2 * L : ℕ) : ℝ))) *
        exp_i (s * (2 * Real.pi) * (((j * u : ℕ) : ℝ) / ((L : ℕ) : ℝ)))) := by
  have hLr : ((L : ℕ) : ℝ) ≠ 0 := Nat.cast_ne_zero.mpr (by omega)
  have hangle : s * (2 * Real.pi) *
      ((((2 * j + 1) * (L + u) : ℕ) : ℝ) / ((2 * L : ℕ) : ℝ)) =
      (s * (2 * Real.pi) * ((u : ℝ) / ((2 * L : ℕ) : ℝ)) +
        s * (2 * Real.pi) * (((j * u : ℕ) : ℝ) / ((L : ℕ) : ℝ))) +
      (s * (2 * Real.pi) * (j : ℝ) + s * Real.pi) := by
    push_cast
    field_simp
    ring
  rw [hangle, exp_i_add, exp_i_add, exp_i_add, exp_i_s_two_pi_nat s hs j, one_mul,
    exp_i_s_pi s hs]
  ring

theorem twiddle_signed (s : ℝ) (inverse : Bool) (hsi : s = if inverse then 1 else -1)
    (n k : ℕ) :
    twiddle inverse n k = exp_i (s * (2 * Real.pi) * ((k : ℝ) / (n : ℝ))) := by
  subst hsi
  unfold twiddle
  cases inverse
  · simp only [Bool.false_eq_true, if_false]
    congr 1
    ring
  · simp only [if_true]
    congr 1
    ring

theorem dft_length (s : ℝ) (v : List ℂ) : (dft s v).length = v.length := by
  simp [dft]

theorem dft_getD (s : ℝ) (v : List ℂ) (k : ℕ) (hk : k < v.length) :
    (dft s v).getD k 0 =
      ∑ j ∈ Finset.range v.length, v.getD j 0 *
        exp_i (s * (2 * Real.pi) * (((j * k : ℕ) : ℝ) / (v.length : ℝ))) := by
  rw [getD_eq_get _ _ (by rw [dft_length]; omega)]
  simp [dft]

theorem fft_general_eq_dft :
    ∀ (e : ℕ) (v : List ℂ) (inverse : Bool), v.length = 2 ^ e →
      fft_general v inverse = dft (if inverse then 1 else -1) v := by
  intro e
  induction e with
  | zero =>
    intro v inverse hv
    obtain ⟨x, rfl⟩ := List.length_eq_one.mp (by simpa using hv)
    rw [fft_general, if_pos (by simp)]
    simp [dft, exp_i_zero]
  | succ e ih =>
    intro v inverse hv
    have hs : (if inverse then (1 : ℝ) else -1) = 1 ∨
        (if inverse then (1 : ℝ) else -1) = -1 := by
      cases inverse
      · right; simp
      · left; simp
    have hpow : (2 : ℕ) ^ (e + 1) = 2 * 2 ^ e := by ring
    have hv2 : v.length = 2 * 2 ^ e := by rw [hv, hpow]
    have hL : 0 < 2 ^ e := pow_pos (by norm_num) e
    have hsl := split_length v
    have he : (split v).1.length = 2 ^ e := by omega
    have ho : (split v).2.length = 2 ^ e := by omega
    rw [fft_general, if_neg (by omega)]
    rw [ih _ inverse he, ih _ inverse ho, hv2]
    rw [butterflies_eq inverse (2 ^ e) _ _ (by rw [dft_length, he])
      (by rw [dft_length, ho])]
    apply List.ext_getElem
    · simp only [List.length_append, List.length_map, List.length_range, dft_length]
      omega
    · intro t h1 h2
      simp only [List.length_append, List.length_map, List.length_range] at h1
      rw [dft_length, hv2] at h2
      have hrhs : (dft (if inverse then (1 : ℝ) else -1) v)[t] =
          ∑ j ∈ Finset.range (2 * 2 ^ e), v.getD j 0 *
            exp_i ((if inverse then (1 : ℝ) else -1) * (2 * Real.pi) *
              (((j * t : ℕ) : ℝ) / ((2 * 2 ^ e : ℕ) : ℝ))) := by
        rw [show (dft (if inverse then (1 : ℝ) else -1) v)[t] =
            (dft (if inverse then (1 : ℝ) else -1) v).getD t 0 from
          (getD_eq_get _ t (by rw [dft_length]; omega)).symm]
        rw [dft_getD _ v t (by omega), hv2]
      rw [hrhs, sum_range_even_odd (2 ^ e)]
      by_cases ht : t < 2 ^ e
      · rw [List.getElem_append_left (by simpa using ht)]
        simp only [List.getElem_map, List.getElem_range]
        rw [dft_getD _ _ t (by omega), dft_getD _ _ t (by omega), he, ho]
        rw [twiddle_signed (if inverse then (1 : ℝ) else -1) inverse rfl]
        have heven : ∀ j ∈ Finset.range (2 ^ e),
            v.getD (2 * j) 0 * exp_i ((if inverse then (1 : ℝ) else -1) *
              (2 * Real.pi) * (((2 * j * t : ℕ) : ℝ) / ((2 * 2 ^ e : ℕ) : ℝ))) =
            (split v).1.getD j 0 * exp_i ((if inverse then (1 : ℝ) else -1) *
              (2 * Real.pi) * (((j * t : ℕ) : ℝ) / ((2 ^ e : ℕ) : ℝ))) := by
          intro j _
          rw [← split_fst_getD, dft_term_even_lt _ (2 ^ e) j t hL]
        have hodd : ∀ j ∈ Finset.range (2 ^ e),
            v.getD (2 * j + 1) 0 * exp_i ((if inverse then (1 : ℝ) else -1) *
              (2 * Real.pi) * ((((2 * j + 1) * t : ℕ) : ℝ) / ((2 * 2 ^ e : ℕ) : ℝ))) =
            exp_i ((if inverse then (1 : ℝ) else -1) * (2 * Real.pi) *
                ((t : ℝ) / ((2 * 2 ^ e : ℕ) : ℝ))) *
              ((split v).2.getD j 0 * exp_i ((if inverse then (1 : ℝ) else -1) *
                (2 * Real.pi) * (((j * t : ℕ) : ℝ) / ((2 ^ e : ℕ) : ℝ)))) := by
          intro j _
          rw [← split_snd_getD, dft_term_odd_lt _ (2 ^ e) j t hL]
          ring
        rw [Finset.sum_congr rfl heven, Finset.sum_congr rfl hodd, ← Finset.mul_sum]
      · rw [List.getElem_append_right (by simpa using ht)]
        obtain ⟨u, rfl⟩ : ∃ u, t = 2 ^ e + u := ⟨t - 2 ^ e, by omega⟩
        have hu : u < 2 ^ e := by omega
        simp only [List.length_map, List.length_range, List.getElem_map,
          List.getElem_range, Nat.add_sub_cancel_left]
        rw [dft_getD _ _ u (by omega), dft_getD _ _ u (by omega), he, ho]
        rw [twiddle_signed (if inverse then (1 : ℝ) else -1) inverse rfl]
        have heven : ∀ j ∈ Finset.range (2 ^ e),
            v.getD (2 * j) 0 * exp_i ((if inverse then (1 : ℝ) else -1) *
              (2 * Real.pi) *
                (((2 * j * (2 ^ e + u) : ℕ) : ℝ) / ((2 * 2 ^ e : ℕ) : ℝ))) =
            (split v).1.getD j 0 * exp_i ((if inverse then (1 : ℝ) else -1) *
              (2 * Real.pi) * (((j * u : ℕ) : ℝ) / ((2 ^ e : ℕ) : ℝ))) := by
          intro j _
          rw [← split_fst_getD, dft_term_even_ge _ hs (2 ^ e) j u hL]
        have hodd : ∀ j ∈ Finset.range (2 ^ e),
            v.getD (2 * j + 1) 0 * exp_i ((if inverse then (1 : ℝ) else -1) *
              (2 * Real.pi) *
                ((((2 * j + 1) * (2 ^ e + u) : ℕ) : ℝ) / ((2 * 2 ^ e : ℕ) : ℝ))) =
            -(exp_i ((if inverse then (1 : ℝ) else -1) * (2 * Real.pi) *
                ((u : ℝ) / ((2 * 2 ^ e : ℕ) : ℝ))) *
              ((split v).2.getD j 0 * exp_i ((if inverse then (1 : ℝ) else -1) *
                (2 * Real.pi) * (((j * u : ℕ) : ℝ) / ((2 ^ e : ℕ) : ℝ))))) := by
          intro j _
          rw [← split_snd_getD, dft_term_odd_ge _ hs (2 ^ e) j u hL]
          ring
        rw [Finset.sum_congr rfl heven, Finset.sum_congr rfl hodd]
        rw [Finset.sum_neg_distrib, ← Finset.mul_sum]
        ring

/-!
## C1 stage 3: DFT inversion and the round trip
-/

theorem exp_i_geom_sum (n : ℕ) (d : ℤ) (hd : d ≠ 0) (hdlt : d.natAbs < n) :
    ∑ k ∈ Finset.range n, exp_i ((2 * Real.pi) * ((k : ℝ) * (d : ℝ) / (n : ℝ))) = 0 := by
  have hn : 0 < n := by omega
  have hnr : (n : ℝ) ≠ 0 := Nat.cast_ne_zero.mpr (by omega)
  have hterm : ∀ k : ℕ, exp_i ((2 * Real.pi) * ((k : ℝ) * (d : ℝ) / (n : ℝ))) =
      exp_i ((2 * Real.pi) * ((d : ℝ) / (n : ℝ))) ^ k := by
    intro k
    rw [← exp_i_nat_mul]
    congr 1
    ring
  rw [Finset.sum_congr rfl fun k _ => hterm k]
  have hr1 : exp_i ((2 * Real.pi) * ((d : ℝ) / (n : ℝ))) ≠ 1 := by
    intro hr
    rw [exp_i_eq_exp, Complex.exp_eq_one_iff] at hr
    obtain ⟨m, hm⟩ := hr
    have him := congrArg Complex.im hm
    simp only [Complex.mul_im, Complex.ofReal_re, Complex.I_im, Complex.ofReal_im,
      Complex.I_re, mul_zero, add_zero, mul_one, Complex.intCast_re,
      Complex.intCast_im, Complex.mul_re, Complex.re_ofNat, Complex.im_ofNat,
      zero_mul, sub_zero, zero_add] at him
    have h2pi : (2 * Real.pi) ≠ 0 := by positivity
    have h1' : (2 * Real.pi) * ((d : ℝ) / (n : ℝ)) = (2 * Real.pi) * (m : ℝ) := by
      rw [him]
      ring
    have h2 := mul_left_cancel₀ h2pi h1'
    rw [div_eq_iff hnr] at h2
    have hdz : d = m * (n : ℤ) := by exact_mod_cast h2
    by_cases hm0 : m = 0
    · rw [hm0, zero_mul] at hdz
      exact hd hdz
    · have h1n : 1 ≤ m.natAbs := Int.natAbs_pos.mpr hm0
      have habs : d.natAbs = m.natAbs * n := by
        rw [hdz, Int.natAbs_mul, Int.natAbs_ofNat]
      have hge : n ≤ d.natAbs := by
        rw [habs]
        calc n = 1 * n := (one_mul n).symm
          _ ≤ m.natAbs * n := Nat.mul_le_mul_right n h1n
      omega
  rw [geom_sum_eq hr1 n]
  have hpow : exp_i ((2 * Real.pi) * ((d : ℝ) / (n : ℝ))) ^ n =
      exp_i ((n : ℝ) * ((2 * Real.pi) * ((d : ℝ) / (n : ℝ)))) := (exp_i_nat_mul _ n).symm
  rw [hpow, show (n : ℝ) * ((2 * Real.pi) * ((d : ℝ) / (n : ℝ))) =
      (d : ℝ) * (2 * Real.pi) by field_simp; ring, exp_i_int_two_pi d]
  simp

theorem dft_dft_inv (v : List ℂ) :
    dft 1 (dft (-1) v) = v.map fun c => (v.length : ℂ) * c := by
  apply List.ext_getElem
  · simp [dft_length]
  · intro m h1 h2
    rw [dft_length, dft_length] at h1
    simp only [List.getElem_map]
    rw [show (dft 1 (dft (-1) v))[m] = (dft 1 (dft (-1) v)).getD m 0 from
      (getD_eq_get _ m (by rw [dft_length, dft_length]; omega)).symm]
    rw [dft_getD 1 (dft (-1) v) m (by rw [dft_length]; omega), dft_length]
    have hstep : ∀ k ∈ Finset.range v.length,
        (dft (-1) v).getD k 0 *
          exp_i (1 * (2 * Real.pi) * (((k * m : ℕ) : ℝ) / (v.length : ℝ))) =
        ∑ j ∈ Finset.range v.length, v.getD j 0 *
          exp_i ((2 * Real.pi) * ((k : ℝ) * ((m : ℝ) - (j : ℝ)) / (v.length : ℝ))) := by
      intro k hk
      rw [dft_getD (-1) v k (List.mem_range.mp hk), Finset.sum_mul]
      refine Finset.sum_congr rfl fun j hj => ?_
      rw [mul_assoc, ← exp_i_add]
      congr 2
      have hnr : (v.length : ℝ) ≠ 0 := Nat.cast_ne_zero.mpr (by omega)
      push_cast
      field_simp
      ring
    rw [Finset.sum_congr rfl hstep, Finset.sum_comm]
    have hj : ∀ j ∈ Finset.range v.length,
        (∑ k ∈ Finset.range v.length, v.getD j 0 *
          exp_i ((2 * Real.pi) * ((k : ℝ) * ((m : ℝ) - (j : ℝ)) / (v.length : ℝ)))) =
        v.getD j 0 * (if j = m then (v.length : ℂ) else 0) := by
      intro j hjmem
      rw [← Finset.mul_sum]
      congr 1
      by_cases hjm : j = m
      · subst hjm
        rw [if_pos rfl]
        have hone : ∀ k ∈ Finset.range v.length,
            exp_i ((2 * Real.pi) * ((k : ℝ) * ((j : ℝ) - (j : ℝ)) / (v.length : ℝ))) = 1 := by
          intro k _
          rw [show (2 * Real.pi) * ((k : ℝ) * ((j : ℝ) - (j : ℝ)) / (v.length : ℝ)) = 0
            by ring, exp_i_zero]
        rw [Finset.sum_congr rfl hone]
        simp
      · rw [if_neg hjm]
        have hd : ((m : ℤ) - (j : ℤ)) ≠ 0 := by
          intro hc
          apply hjm
          omega
        have hjlt := List.mem_range.mp hjmem
        have hdlt : ((m : ℤ) - (j : ℤ)).natAbs < v.length := by omega
        rw [← exp_i_geom_sum v.length ((m : ℤ) - (j : ℤ)) hd hdlt]
        refine Finset.sum_congr rfl fun k _ => ?_
        congr 1
        push_cast
        ring
    rw [Finset.sum_congr rfl hj, Finset.sum_eq_single m]
    · rw [if_pos rfl, getD_eq_get v m (by omega)]
      ring
    · intro j _ hjm
      rw [if_neg hjm, mul_zero]
    · intro habs
      exact absurd (Finset.mem_range.mpr (by omega)) habs

theorem pad_of_pow2 (v : List ℂ) (h : ∃ k, v.length = 2 ^ k) :
    pad_if_necessary v = v := by
  obtain ⟨k, hk⟩ := h
  unfold pad_if_necessary
  rw [hk]
  simp [land_pred_eq_zero_of_pow2]

theorem pad_length_pow2 (v : List ℂ) (h : 1 ≤ v.length) :
    ∃ k, (pad_if_necessary v).length = 2 ^ k := by
  by_cases hp : ∃ k, v.length = 2 ^ k
  · rw [pad_of_pow2 v hp]
    exact hp
  · have hcond : ¬(v.length &&& (v.length - 1) = 0) := fun hc =>
      hp (pow2_of_land_pred_eq_zero h hc)
    refine ⟨Nat.log 2 v.length + 1, ?_⟩
    unfold pad_if_necessary
    rw [if_neg hcond]
    have hhigh : v.length < 2 ^ (Nat.log 2 v.length + 1) :=
      Nat.lt_pow_succ_log_self (by norm_num) v.length
    simp only [List.length_append, List.length_replicate]
    omega

theorem scale_unscale (n : ℕ) (hn : 0 < n) (c : ℂ) :
    ((⟨((n : ℂ) * c).re / (n : ℝ), ((n : ℂ) * c).im / (n : ℝ)⟩ : ℂ)) = c := by
  have hnr : (n : ℝ) ≠ 0 := Nat.cast_ne_zero.mpr (by omega)
  apply Complex.ext <;>
    simp [Complex.mul_re, Complex.mul_im] <;>
    field_simp

theorem roundtrip_exact (x : List ℂ) (hx : x ≠ []) :
    ifft (fft x) = pad_if_necessary x := by
  have hlen : 1 ≤ x.length := by
    cases x
    · exact absurd rfl hx
    · simp
  obtain ⟨E, hE⟩ := pad_length_pow2 x hlen
  have h1 : fft x = dft (-1) (pad_if_necessary x) := by
    rw [fft, fft_general_eq_dft E (pad_if_necessary x) false hE]
    norm_num
  have h2 : pad_if_necessary (dft (-1) (pad_if_necessary x)) =
      dft (-1) (pad_if_necessary x) :=
    pad_of_pow2 _ ⟨E, by rw [dft_length]; exact hE⟩
  rw [ifft, h1]
  simp only [h2]
  rw [fft_general_eq_dft E (dft (-1) (pad_if_necessary x)) true
    (by rw [dft_length]; exact hE)]
  simp only [if_true]
  rw [dft_dft_inv (pad_if_necessary x), dft_length]
  rw [List.map_map]
  apply List.ext_getElem
  · simp
  · intro i hi1 hi2
    simp only [List.getElem_map, Function.comp_apply]
    exact scale_unscale (pad_if_necessary x).length (by omega) _

/-- C1 counterexample at the explicit concrete input `[]`: the source
transform never returns on the empty sequence — no recursion budget
suffices — so `inverse_transform(transform([]))` produces no value at all,
and the round-trip claim fails for the empty input. -/
theorem roundtrip_fails_on_empty :
    ¬ ∃ (fuel : ℕ) (r : List ℂ),
        fft_general_fuel fuel (pad_if_necessary ([] : List ℂ)) false = some r := by
  rintro ⟨fuel, r, hr⟩
  rw [show pad_if_necessary ([] : List ℂ) = [] by unfold pad_if_necessary; norm_num,
    fft_general_fuel_nil] at hr
  exact Option.noConfusion hr

/-- C1 (amended to nonempty inputs): for every nonempty complex sequence
`x`, `inverse_transform(transform(x))` equals `x` zero-padded to the next
power-of-two length — exactly in the real-arithmetic model, hence within
`1e-9` in every component. -/
theorem roundtrip_within_tolerance (x : List ℂ) (hx : x ≠ []) :
    ifft (fft x) = pad_if_necessary x ∧
    ∀ k : ℕ, Complex.abs ((ifft (fft x)).getD k 0 -
      (pad_if_necessary x).getD k 0) ≤ 1e-9 := by
  have h := roundtrip_exact x hx
  refine ⟨h, fun k => ?_⟩
  rw [h, sub_self, map_zero]
  norm_num

/-- Closed witness for `roundtrip_within_tolerance` at `[1]`. -/
theorem roundtrip_within_tolerance_witness :
    ifft (fft [(1 : ℂ)]) = pad_if_necessary [(1 : ℂ)] ∧
    ∀ k : ℕ, Complex.abs ((ifft (fft [(1 : ℂ)])).getD k 0 -
      (pad_if_necessary [(1 : ℂ)]).getD k 0) ≤ 1e-9 :=
  roundtrip_within_tolerance [(1 : ℂ)] (by simp)

end

end RsFFT

